import Mathlib

/-!
Shallow embedding of `studybot.py` (a Discord study-session timer bot) and
verification of its specification claims.

The embedding models:
  * `_to_epoch_mixed` (mixed integer / timestamp-string normalization),
  * `sum_user_between` (per-user overlap sum),
  * `rank_between` (per-group ranking),
  * `cmd_start` / `cmd_end` (session state machine, store effects only),
  * the `month` branch of `period_range`,
  * `cmd_sessions` (session listing with per-session durations).

Stored timestamps are modelled by `PyVal`: either a raw integer or a string.
The Python standard-library behaviours that the code calls on a string
(`datetime.fromisoformat`, `int(...)`, and SQLite's cross-type ordering) are
external to the repository, so a string value is modelled by the outcomes of
those calls: its raw text, the `fromisoformat` result (wall-clock seconds plus
an optional UTC offset), and the `int(...)` result.  Exceptions are modelled
by `Option` (`none` = the operation raises).
-/

namespace StudyBot

/-- Sequential effectful map over a list in the `Option` monad: normalizes each
element in order and aborts at the first failure, matching a Python loop in
which an exception aborts the whole call. -/
def mapOpt (f : α → Option β) : List α → Option (List β)
  | [] => some []
  | x :: xs => do
      let y ← f x
      let ys ← mapOpt f xs
      pure (y :: ys)

/-! ### Timestamp values and `_to_epoch_mixed` -/

/-- Fixed process-wide zone offset in seconds: `ZoneInfo("Asia/Seoul")`,
UTC+9 (the fallback `timezone(timedelta(hours=9))` has the same offset). -/
def TZOFFSET : Int := 9 * 3600

/-- Result of a successful `datetime.fromisoformat` call on a stored string:
`wall` is the wall-clock reading in seconds measured as if it were UTC, and
`off` is the parsed UTC offset in seconds (`none` when the string carries no
offset, i.e. the datetime is naive).  The epoch value of the datetime is
`wall - offset`, with a naive datetime given the process-wide fixed zone. -/
structure IsoDT where
  wall : Int
  off : Option Int
deriving DecidableEq, Repr

/-- Model of a stored string value through the outcomes of the external calls
the code performs on it: `raw` text (used only for SQLite ordering),
`iso` = the `datetime.fromisoformat` outcome (`none` = raises), and
`asInt` = the `int(...)` outcome (`none` = raises). -/
structure StrVal where
  raw : String
  iso : Option IsoDT
  asInt : Option Int
deriving DecidableEq, Repr

/-- A stored `start_ts` / `end_ts` column value: SQLite kept some rows as raw
epoch integers and some as timestamp text. -/
inductive PyVal where
  | vint (n : Int)
  | vstr (s : StrVal)
deriving DecidableEq, Repr

/-- Embedding of `_to_epoch_mixed` (studybot.py lines 77-86): an integer is
used directly; otherwise the value is parsed with `datetime.fromisoformat`,
a missing offset is replaced by the fixed zone, and the result converted to
epoch seconds; if parsing raises, the last resort is `int(str(v))`; if that
also raises, the whole operation raises (`none`). -/
def toEpochMixed : PyVal → Option Int
  | .vint n => some n
  | .vstr s =>
      match s.iso with
      | some d => some (d.wall - d.off.getD TZOFFSET)
      | none => s.asInt

/-- Embedding of a plain Python `int(v)` applied to a stored value, as done by
`cmd_end` (line 242): an integer is returned as is, a string goes through
`int(...)` directly (raising on non-numeric text). -/
def pyIntOf : PyVal → Option Int
  | .vint n => some n
  | .vstr s => s.asInt

/-! ### The sessions table -/

/-- One row of the `sessions` table (studybot.py lines 91-100). -/
structure Session where
  id : Nat
  user_id : Int
  user_name : Option String
  guild_id : Int
  start_ts : PyVal
  end_ts : Option PyVal
  duration_seconds : Option Int
deriving DecidableEq, Repr

/-- Rows returned by
`SELECT start_ts, end_ts FROM sessions WHERE user_id=? AND guild_id=? AND end_ts IS NOT NULL`
(studybot.py lines 119-123). -/
def userClosedRows (db : List Session) (uid gid : Int) : List (PyVal × PyVal) :=
  db.filterMap fun s =>
    match s.end_ts with
    | some e => if s.user_id == uid && s.guild_id == gid then some (s.start_ts, e) else none
    | none => none

/-- Rows returned by
`SELECT start_ts FROM sessions WHERE user_id=? AND guild_id=? AND end_ts IS NULL`
(studybot.py lines 133-137). -/
def userOpenRows (db : List Session) (uid gid : Int) : List PyVal :=
  db.filterMap fun s =>
    match s.end_ts with
    | some _ => none
    | none => if s.user_id == uid && s.guild_id == gid then some s.start_ts else none

/-! ### Overlap arithmetic and `sum_user_between` -/

/-- Overlap of a closed interval pair with the query window:
`max(0, min(et_e, end_s) - max(st_e, start_s))` (studybot.py line 129). -/
def overlap (a b ws we : Int) : Int := max 0 (min b we - max a ws)

/-- Per-closed-session contribution: the loop body of lines 124-129 skips a
row with `et_e <= st_e` (`continue`), otherwise adds the overlap; skipping is
recorded as contributing `0`. -/
def closedTerm (a b ws we : Int) : Int := if b ≤ a then 0 else overlap a b ws we

/-- Per-open-session contribution: `clamp_now = min(now_ts(), end_s)` then
`max(0, clamp_now - max(st_e, start_s))` (studybot.py lines 138-141). -/
def openTerm (a ws we now : Int) : Int := max 0 (min now we - max a ws)

/-- Closed-session loop of `sum_user_between` (lines 124-129): normalizes each
row's two timestamps in order and accumulates `closedTerm`; a normalization
failure raises out of the whole call. -/
def sumClosed (ws we : Int) : List (PyVal × PyVal) → Option Int
  | [] => some 0
  | p :: ps => do
      let a ← toEpochMixed p.1
      let b ← toEpochMixed p.2
      let rest ← sumClosed ws we ps
      pure (closedTerm a b ws we + rest)

/-- Open-session loop of `sum_user_between` (lines 132-141). -/
def sumOpen (ws we now : Int) : List PyVal → Option Int
  | [] => some 0
  | v :: vs => do
      let a ← toEpochMixed v
      let rest ← sumOpen ws we now vs
      pure (openTerm a ws we now + rest)

/-- Embedding of `sum_user_between` (studybot.py lines 115-143).  The clock
read `now_ts()` is passed explicitly as `now`; `none` models an uncaught
normalization exception. -/
def sumUserBetween (db : List Session) (uid gid ws we : Int)
    (includeActive : Bool) (now : Int) : Option Int := do
  let c ← sumClosed ws we (userClosedRows db uid gid)
  let o ← if includeActive then sumOpen ws we now (userOpenRows db uid gid) else pure 0
  pure (c + o)

/-- Normalization of one closed row's pair of stored values, start first. -/
def normPair (p : PyVal × PyVal) : Option (Int × Int) := do
  let a ← toEpochMixed p.1
  let b ← toEpochMixed p.2
  pure (a, b)

/-- Stated from the spec's wording of the per-user sum, for comparison with
`sumUserBetween`: the sum over every closed session of
`max(0, min(end_time, window_end) - max(start_time, window_start))` (a session
with `end_time ≤ start_time` contributes zero, which the bare formula already
gives), plus, when `include_open` is set, for every open session
`max(0, min(now, window_end) - max(start_time, window_start))`. -/
def specSumUser (db : List Session) (uid gid ws we : Int)
    (includeOpen : Bool) (now : Int) : Option Int := do
  let cp ← mapOpt normPair (userClosedRows db uid gid)
  let op ← if includeOpen then mapOpt toEpochMixed (userOpenRows db uid gid) else pure []
  pure ((cp.map fun q => max 0 (min q.2 we - max q.1 ws)).sum
    + (op.map fun s => max 0 (min now we - max s ws)).sum)

/-! ### Session start / end state machine -/

inductive StartOutcome where
  | alreadyInProgress
  | started
deriving DecidableEq, Repr

inductive EndOutcome where
  | nothingInProgress
  | ended (dur : Int)
deriving DecidableEq, Repr

/-- Guard query of `cmd_start` (lines 207-211):
`SELECT id FROM sessions WHERE user_id=? AND guild_id=? AND end_ts IS NULL`
fetches a row iff an open session exists for the pair. -/
def hasOpenRow (db : List Session) (uid gid : Int) : Bool :=
  db.any fun s => s.user_id == uid && s.guild_id == gid && s.end_ts.isNone

/-- Next `AUTOINCREMENT` primary key. -/
def nextId (db : List Session) : Nat := (db.foldl (fun m s => max m s.id) 0) + 1

/-- Embedding of `cmd_start` (studybot.py lines 200-222), store effects only:
if an open row exists the command replies "already in progress" and inserts
nothing; otherwise it inserts an open row with `start_ts = now_ts()`. -/
def cmdStart (db : List Session) (uid : Int) (uname : String) (gid now : Int) :
    StartOutcome × List Session :=
  if hasOpenRow db uid gid then (.alreadyInProgress, db)
  else (.started, db ++ [⟨nextId db, uid, some uname, gid, .vint now, none, none⟩])

/-- Lookup of `cmd_end` (lines 232-235):
`SELECT id, start_ts ... WHERE user_id=? AND guild_id=? AND end_ts IS NULL ORDER BY id DESC LIMIT 1`,
i.e. the open row with the largest id, if any. -/
def latestOpen (db : List Session) (uid gid : Int) : Option Session :=
  db.foldl (fun acc s =>
    if s.user_id == uid && s.guild_id == gid && s.end_ts.isNone then
      match acc with
      | none => some s
      | some t => if t.id ≤ s.id then some s else some t
    else acc) none

/-- Embedding of `cmd_end` (studybot.py lines 225-251), store effects only:
with no open row it replies "nothing in progress" and updates nothing;
otherwise it reads the row's `start_ts` through a plain `int(...)` (line 242,
raising on timestamp text, modelled by `none`), computes
`dur = max(0, now - start)` and closes the row. -/
def cmdEnd (db : List Session) (uid gid now : Int) :
    Option (EndOutcome × List Session) :=
  match latestOpen db uid gid with
  | none => some (.nothingInProgress, db)
  | some r => do
      let st ← pyIntOf r.start_ts
      let dur := max 0 (now - st)
      pure (.ended dur, db.map fun s =>
        if s.id == r.id then
          { s with end_ts := some (.vint now), duration_seconds := some dur }
        else s)

/-! ### Group ranking: rank_between -/

/-- Closed-session row of a group, as fetched by
`SELECT user_id, COALESCE(user_name,''), start_ts, end_ts FROM sessions WHERE guild_id=? AND end_ts IS NOT NULL`
(studybot.py lines 151-156); a NULL `user_name` is coalesced to `""`. -/
structure CRow where
  uid : Int
  name : String
  st : PyVal
  et : PyVal
deriving DecidableEq, Repr

/-- Open-session row of a group (lines 170-175). -/
structure ORow where
  uid : Int
  name : String
  st : PyVal
deriving DecidableEq, Repr

def groupClosedRows (db : List Session) (gid : Int) : List CRow :=
  db.filterMap fun s =>
    match s.end_ts with
    | some e =>
        if s.guild_id == gid then some ⟨s.user_id, s.user_name.getD "", s.start_ts, e⟩
        else none
    | none => none

def groupOpenRows (db : List Session) (gid : Int) : List ORow :=
  db.filterMap fun s =>
    match s.end_ts with
    | some _ => none
    | none =>
        if s.guild_id == gid then some ⟨s.user_id, s.user_name.getD "", s.start_ts⟩
        else none

/-- `totals[uid] = totals.get(uid, 0) + overlap` on a Python dict: updating a
present key keeps its insertion position, a new key is appended at the end. -/
def addTotal (totals : List (Int × Int)) (uid : Int) (ov : Int) : List (Int × Int) :=
  if totals.any fun p => p.1 == uid then
    totals.map fun p => if p.1 == uid then (p.1, p.2 + ov) else p
  else totals ++ [(uid, ov)]

/-- `if uid not in names or not names[uid]: names[uid] = name or ""`
(studybot.py lines 165-166 and 182-183): the stored display name is set when
the key is absent and overwritten only while the stored value is empty. -/
def updName (names : List (Int × String)) (uid : Int) (name : String) :
    List (Int × String) :=
  match names.find? fun p => p.1 == uid with
  | none => names ++ [(uid, name)]
  | some p =>
      if p.2 = "" then names.map fun q => if q.1 == uid then (q.1, name) else q
      else names

def rawLookup (names : List (Int × String)) (uid : Int) : Option String :=
  (names.find? fun p => p.1 == uid).map fun p => p.2

/-- `names.get(uid, "")` (studybot.py line 186). -/
def lookupName (names : List (Int × String)) (uid : Int) : String :=
  (rawLookup names uid).getD ""

/-- State of the two Python dicts `totals` and `names`, as insertion-ordered
association lists. -/
abbrev Acc := List (Int × Int) × List (Int × String)

/-- Closed group row after timestamp normalization. -/
structure NRow where
  uid : Int
  name : String
  a : Int
  b : Int
deriving DecidableEq, Repr

/-- Open group row after timestamp normalization. -/
structure NORow where
  uid : Int
  name : String
  a : Int
deriving DecidableEq, Repr

def normCRow (r : CRow) : Option NRow := do
  let a ← toEpochMixed r.st
  let b ← toEpochMixed r.et
  pure ⟨r.uid, r.name, a, b⟩

def normORow (r : ORow) : Option NORow := do
  let a ← toEpochMixed r.st
  pure ⟨r.uid, r.name, a⟩

/-- Loop body of `rank_between` for one closed row (lines 157-166): skip a
degenerate row, compute the overlap, and on a positive overlap update
`totals` and `names`. -/
def stepClosed (ws we : Int) (acc : Acc) (n : NRow) : Acc :=
  if n.b ≤ n.a then acc
  else
    let ov := overlap n.a n.b ws we
    if 0 < ov then (addTotal acc.1 n.uid ov, updName acc.2 n.uid n.name) else acc

/-- Loop body of `rank_between` for one open row (lines 176-183). -/
def stepOpen (ws we now : Int) (acc : Acc) (n : NORow) : Acc :=
  let ov := openTerm n.a ws we now
  if 0 < ov then (addTotal acc.1 n.uid ov, updName acc.2 n.uid n.name) else acc

/-- Closed-row loop of `rank_between` (lines 157-166): normalization of each
row interleaved with accumulation; a normalization exception aborts the call. -/
def accClosed (ws we : Int) : List CRow → Acc → Option Acc
  | [], acc => some acc
  | r :: rs, acc => do
      let n ← normCRow r
      accClosed ws we rs (stepClosed ws we acc n)

/-- Open-row loop of `rank_between` (lines 176-183). -/
def accOpen (ws we now : Int) : List ORow → Acc → Option Acc
  | [], acc => some acc
  | r :: rs, acc => do
      let n ← normORow r
      accOpen ws we now rs (stepOpen ws we now acc n)

/-- Python's `sorted(totals.items(), key=lambda x: x[1], reverse=True)`
(line 185): a stable sort, descending by the accumulated total. -/
def sortTotalsDesc (l : List (Int × Int)) : List (Int × Int) :=
  l.insertionSort fun x y => y.2 ≤ x.2

/-- Embedding of `rank_between` (studybot.py lines 146-186): accumulate
per-user totals and display names over the group's closed rows (and, when
`include_active` is set, its open rows), sort descending by total, truncate
to `limit`, and attach `names.get(uid, "")`. -/
def rankBetween (db : List Session) (gid ws we : Int) (includeActive : Bool)
    (now : Int) (limit : Nat) : Option (List (Int × String × Int)) := do
  let acc1 ← accClosed ws we (groupClosedRows db gid) ([], [])
  let acc2 ←
    if includeActive then accOpen ws we now (groupOpenRows db gid) acc1
    else pure acc1
  let ordered := (sortTotalsDesc acc2.1).take limit
  pure (ordered.map fun p => (p.1, lookupName acc2.2 p.1, p.2))

/-! ### Contribution view of the accumulation -/

/-- Contribution of one normalized closed row: `none` when the loop body
leaves the accumulator unchanged (degenerate row or non-positive overlap),
otherwise the user, display name, and positive overlap added. -/
def contribOfC (ws we : Int) (n : NRow) : Option (Int × String × Int) :=
  if n.b ≤ n.a then none
  else
    let ov := overlap n.a n.b ws we
    if 0 < ov then some (n.uid, n.name, ov) else none

/-- Contribution of one normalized open row. -/
def contribOfO (ws we now : Int) (n : NORow) : Option (Int × String × Int) :=
  let ov := openTerm n.a ws we now
  if 0 < ov then some (n.uid, n.name, ov) else none

def applyContrib (acc : Acc) : Option (Int × String × Int) → Acc
  | none => acc
  | some c => (addTotal acc.1 c.1 c.2.2, updName acc.2 c.1 c.2.1)

/-- Update function on the stored value for one user's display name:
absent → set; stored empty → overwrite; otherwise keep. -/
def nameUpd (cur : Option String) (c : String) : Option String :=
  match cur with
  | none => some c
  | some s => if s = "" then some c else some s

/-- Display names carried by the contributions of user `u`, in processing
order. -/
def namesFor (cs : List (Option (Int × String × Int))) (u : Int) : List String :=
  cs.filterMap fun c => c.bind fun d => if d.1 == u then some d.2.1 else none

/-! ### Contribution characterization of rank_between -/

/-- Contributions processed by one `rank_between` call, in processing order:
the closed rows' contributions followed (when `include_active`) by the open
rows'; `none` models a normalization exception. -/
def contribsOfDb (db : List Session) (gid ws we : Int) (incl : Bool)
    (now : Int) : Option (List (Option (Int × String × Int))) := do
  let ns ← mapOpt normCRow (groupClosedRows db gid)
  let os ← if incl then mapOpt normORow (groupOpenRows db gid) else pure []
  pure (ns.map (contribOfC ws we) ++ os.map (contribOfO ws we now))

/-! ### Period calculator, month branch -/

/-- Naive local wall-clock datetime at second granularity (the code also
zeroes microseconds; the model has none). -/
structure LocalDT where
  year : Int
  month : Int
  day : Int
  hour : Int
  minute : Int
  second : Int
deriving DecidableEq, Repr

/-- Embedding of the `month` branch of `period_range` (studybot.py lines
49-51): `start = cur.replace(day=1, hour=0, minute=0, second=0)` and
`end = start.replace(year=start.year+1, month=1) if start.month == 12 else
start.replace(month=start.month+1)`. -/
def periodRangeMonth (cur : LocalDT) : LocalDT × LocalDT :=
  let start : LocalDT := { cur with day := 1, hour := 0, minute := 0, second := 0 }
  let stop : LocalDT :=
    if start.month = 12 then { start with year := start.year + 1, month := 1 }
    else { start with month := start.month + 1 }
  (start, stop)

/-! ### Name bookkeeping results -/

/-- First non-empty string of a list, `""` when there is none. -/
def firstNE (l : List String) : String :=
  (l.find? fun s => !(s == "")).getD ""

/-! ### Session listing: cmd_sessions -/

/-- SQLite ordering key `COALESCE(end_ts, start_ts)` (studybot.py line 360). -/
def coalesceKey (s : Session) : PyVal := s.end_ts.getD s.start_ts

/-- SQLite cross-type ordering of stored values: every integer sorts before
every text value, integers by numeric value, text by byte order (the default
BINARY collation). -/
def pvLe (x y : PyVal) : Bool :=
  match x, y with
  | .vint a, .vint b => a ≤ b
  | .vint _, .vstr _ => true
  | .vstr _, .vint _ => false
  | .vstr a, .vstr b => a.raw ≤ b.raw

/-- Rows of `SELECT start_ts, end_ts FROM sessions WHERE user_id=? AND guild_id=?`
(studybot.py lines 355-363), before ordering. -/
def userRows (db : List Session) (uid gid : Int) : List Session :=
  db.filter fun s => s.user_id == uid && s.guild_id == gid

/-- `ORDER BY COALESCE(end_ts, start_ts) DESC` (line 360) as a stable
descending sort on the coalesced key. -/
def sortRowsDesc (l : List Session) : List Session :=
  l.insertionSort fun s t => pvLe (coalesceKey t) (coalesceKey s) = true

/-- One output line of `cmd_sessions` (lines 366-378): normalized start,
normalized end for a closed session (`none` = still open, rendered `NOW`),
and the computed duration `add`. -/
structure SessLine where
  stE : Int
  etE : Option Int
  dur : Int
deriving DecidableEq, Repr

/-- Per-row rendering of `cmd_sessions` (lines 366-378): a closed row's
duration is its overlap with the window, an open row's duration clamps the
effective end to `min(now_ts(), e_ts)`; no degenerate-row skip here. -/
def lineOf (ws we now : Int) (s : Session) : Option SessLine := do
  let a ← toEpochMixed s.start_ts
  match s.end_ts with
  | none => pure ⟨a, none, max 0 (min now we - max a ws)⟩
  | some e => do
      let b ← toEpochMixed e
      pure ⟨a, some b, max 0 (min b we - max a ws)⟩

/-- Embedding of `cmd_sessions` (studybot.py lines 345-383): the caller's 20
most recent rows by `COALESCE(end_ts, start_ts) DESC` — fetched regardless of
the query window — each rendered with its duration; the reported total sums
the positive durations. -/
def cmdSessions (db : List Session) (uid gid ws we now : Int) :
    Option (List SessLine × Int) := do
  let lines ← mapOpt (lineOf ws we now) ((sortRowsDesc (userRows db uid gid)).take 20)
  pure (lines, (lines.map fun l => if 0 < l.dur then l.dur else 0).sum)

/-! ### Definitions used to state the claims -/

/-- The `(user_id, name)` pairs of the contributing sessions of one
`rank_between` call, in processing order (closed rows first, then open rows
when `include_active`); a contributing session is one whose computed overlap
is positive. -/
def contribPairs (db : List Session) (gid ws we : Int) (incl : Bool)
    (now : Int) : Option (List (Int × String)) :=
  (contribsOfDb db gid ws we incl now).map fun cs =>
    cs.filterMap fun c => c.map fun d => (d.1, d.2.1)

/-- First non-empty display name among user `u`'s contributing sessions,
`""` when every contributing name is empty. -/
def firstNonEmptyNameFor (pairs : List (Int × String)) (u : Int) : String :=
  firstNE ((pairs.filter fun p => p.1 == u).map Prod.snd)

/-- User `u` has zero overlap with the window: every one of their closed
sessions in the group has overlap `0` (this includes every degenerate session
with `end ≤ start`), and, when `include_active` is set, so does every open
session with its end clamped to `min(now, window_end)`. -/
def zeroOverlapUser (db : List Session) (gid ws we : Int) (incl : Bool)
    (now : Int) (u : Int) : Prop :=
  (∀ r ∈ groupClosedRows db gid, r.uid = u →
    ∀ a b, toEpochMixed r.st = some a → toEpochMixed r.et = some b →
      overlap a b ws we = 0) ∧
  (incl = true → ∀ r ∈ groupOpenRows db gid, r.uid = u →
    ∀ a, toEpochMixed r.st = some a → openTerm a ws we now = 0)

/-! ### Example data -/

/-- Example store: user 1 has one closed session `[0, 10)` and one open
session started at `40`, all in guild `0`. -/
def exDb1 : List Session :=
  [⟨1, 1, some "A", 0, .vint 0, some (.vint 10), some 10⟩,
   ⟨2, 1, some "A", 0, .vint 40, none, none⟩]

/-- The same store with the closed session's start stored as legacy timestamp
text normalizing to epoch `0`. -/
def exDb1Str : List Session :=
  [⟨1, 1, some "A", 0, .vstr ⟨"1970-01-01 09:00:00", some ⟨0, some 0⟩, none⟩,
      some (.vint 10), some 10⟩,
   ⟨2, 1, some "A", 0, .vint 40, none, none⟩]

/-- A legacy timestamp-text value: `fromisoformat` parses it to epoch `100`,
while `int(...)` on it raises. -/
def exIsoVal : PyVal := .vstr ⟨"1970-01-01 09:01:40", some ⟨100, some 0⟩, none⟩

/-- A store holding one open session whose `start_ts` is timestamp text. -/
def exDb2 : List Session := [⟨1, 1, some "A", 0, exIsoVal, none, none⟩]

/-- A store with one open session of user 1 in guild 0. -/
def exDb3 : List Session := [⟨1, 1, some "A", 0, .vint 100, none, none⟩]

/-- Three users with totals A: 100, B: 300, C: 50 inside the window. -/
def exDb6 : List Session :=
  [⟨1, 1, some "A", 7, .vint 0, some (.vint 100), some 100⟩,
   ⟨2, 2, some "B", 7, .vint 0, some (.vint 300), some 300⟩,
   ⟨3, 3, some "C", 7, .vint 0, some (.vint 50), some 50⟩]

/-- One user with two contributing sessions named "Alice" then "Bob". -/
def exDb7 : List Session :=
  [⟨1, 1, some "Alice", 7, .vint 0, some (.vint 100), some 100⟩,
   ⟨2, 1, some "Bob", 7, .vint 100, some (.vint 200), some 100⟩]

/-- One closed session `[0, 10)`, entirely before the window `[100, 200)`. -/
def exDb9 : List Session := [⟨1, 1, some "A", 0, .vint 0, some (.vint 10), some 10⟩]

/-! ### Theorems -/

theorem mapOpt_nil (f : α → Option β) : mapOpt f [] = some [] := rfl

theorem mapOpt_map (f : β → Option γ) (g : α → β) (l : List α) :
    mapOpt f (l.map g) = mapOpt (fun x => f (g x)) l := by
  induction l with
  | nil => rfl
  | cons x xs ih => simp [mapOpt, ih]

theorem mapOpt_congr {f g : α → Option β} (l : List α)
    (h : ∀ x ∈ l, f x = g x) : mapOpt f l = mapOpt g l := by
  induction l with
  | nil => rfl
  | cons x xs ih =>
      simp only [mapOpt, h x (List.mem_cons_self x xs),
        ih (fun y hy => h y (List.mem_cons_of_mem x hy))]

theorem mapOpt_eq_of_map_eq {f : α → Option γ} {g : β → Option γ}
    {l : List α} {l' : List β}
    (h : l.map f = l'.map g) : mapOpt f l = mapOpt g l' := by
  induction l generalizing l' with
  | nil =>
      cases l' with
      | nil => rfl
      | cons y ys => simp at h
  | cons x xs ih =>
      cases l' with
      | nil => simp at h
      | cons y ys =>
          simp only [List.map_cons, List.cons.injEq] at h
          simp [mapOpt, h.1, ih h.2]

theorem mapOpt_length {f : α → Option β} {l : List α} {out : List β}
    (h : mapOpt f l = some out) : out.length = l.length := by
  induction l generalizing out with
  | nil => simp [mapOpt] at h; simp [← h]
  | cons x xs ih =>
      simp only [mapOpt, Option.bind_eq_bind, Option.bind_eq_some] at h
      obtain ⟨y, _, ys, hys, hout⟩ := h
      cases hout
      simp [ih hys]

theorem sumClosed_eq_mapOpt (ws we : Int) (l : List (PyVal × PyVal)) :
    sumClosed ws we l =
      (mapOpt normPair l).map fun ns =>
        (ns.map fun q => closedTerm q.1 q.2 ws we).sum := by
  induction l with
  | nil => rfl
  | cons p ps ih =>
      simp only [sumClosed, normPair, mapOpt, ih]
      cases toEpochMixed p.1 with
      | none => rfl
      | some a =>
          cases toEpochMixed p.2 with
          | none => rfl
          | some b =>
              cases mapOpt normPair ps with
              | none => rfl
              | some ns => simp [add_comm]

theorem sumOpen_eq_mapOpt (ws we now : Int) (l : List PyVal) :
    sumOpen ws we now l =
      (mapOpt toEpochMixed l).map fun ns =>
        (ns.map fun a => openTerm a ws we now).sum := by
  induction l with
  | nil => rfl
  | cons v vs ih =>
      simp only [sumOpen, mapOpt, ih]
      cases toEpochMixed v with
      | none => rfl
      | some a =>
          cases mapOpt toEpochMixed vs with
          | none => rfl
          | some ns => simp [add_comm]

theorem closedTerm_eq_overlap (a b ws we : Int) :
    closedTerm a b ws we = overlap a b ws we := by
  unfold closedTerm overlap
  split_ifs with h
  · omega
  · rfl

theorem closedTerm_nonneg (a b ws we : Int) : 0 ≤ closedTerm a b ws we := by
  unfold closedTerm overlap
  split_ifs <;> omega

theorem openTerm_nonneg (a ws we now : Int) : 0 ≤ openTerm a ws we now := by
  unfold openTerm; omega

theorem sumUserBetween_eq_spec (db : List Session) (uid gid ws we : Int)
    (incl : Bool) (now : Int) :
    sumUserBetween db uid gid ws we incl now =
      specSumUser db uid gid ws we incl now := by
  unfold sumUserBetween specSumUser
  rw [sumClosed_eq_mapOpt]
  cases hc : mapOpt normPair (userClosedRows db uid gid) with
  | none => rfl
  | some cp =>
      cases incl with
      | false => simp [closedTerm_eq_overlap, overlap]
      | true =>
          rw [sumOpen_eq_mapOpt]
          cases ho : mapOpt toEpochMixed (userOpenRows db uid gid) with
          | none => simp
          | some op => simp [closedTerm_eq_overlap, overlap, openTerm]

theorem sumClosed_nonneg (ws we : Int) (l : List (PyVal × PyVal)) (t : Int)
    (h : sumClosed ws we l = some t) : 0 ≤ t := by
  induction l generalizing t with
  | nil => simp only [sumClosed, Option.some.injEq] at h; omega
  | cons p ps ih =>
      simp only [sumClosed, Option.bind_eq_bind, Option.bind_eq_some,
        Option.pure_def, Option.some.injEq] at h
      obtain ⟨a, _, b, _, rest, hrest, ht⟩ := h
      have h1 := ih rest hrest
      have h2 := closedTerm_nonneg a b ws we
      omega

theorem sumOpen_nonneg (ws we now : Int) (l : List PyVal) (t : Int)
    (h : sumOpen ws we now l = some t) : 0 ≤ t := by
  induction l generalizing t with
  | nil => simp only [sumOpen, Option.some.injEq] at h; omega
  | cons v vs ih =>
      simp only [sumOpen, Option.bind_eq_bind, Option.bind_eq_some,
        Option.pure_def, Option.some.injEq] at h
      obtain ⟨a, _, rest, hrest, ht⟩ := h
      have h1 := ih rest hrest
      have h2 := openTerm_nonneg a ws we now
      omega

theorem sumUserBetween_nonneg (db : List Session) (uid gid ws we : Int)
    (incl : Bool) (now : Int) (t : Int)
    (h : sumUserBetween db uid gid ws we incl now = some t) : 0 ≤ t := by
  unfold sumUserBetween at h
  cases hcc : sumClosed ws we (userClosedRows db uid gid) with
  | none => rw [hcc] at h; simp at h
  | some c =>
      rw [hcc] at h
      have h1 := sumClosed_nonneg ws we _ c hcc
      cases incl with
      | false =>
          simp at h
          omega
      | true =>
          simp only [Option.bind_eq_bind, Option.some_bind] at h
          rw [if_pos trivial] at h
          cases hoo : sumOpen ws we now (userOpenRows db uid gid) with
          | none => rw [hoo] at h; simp at h
          | some o =>
              rw [hoo] at h
              simp at h
              have h2 := sumOpen_nonneg ws we now _ o hoo
              omega

theorem latestOpen_eq_none (db : List Session) (uid gid : Int)
    (h : hasOpenRow db uid gid = false) : latestOpen db uid gid = none := by
  unfold hasOpenRow at h
  unfold latestOpen
  rw [List.any_eq_false] at h
  induction db with
  | nil => rfl
  | cons s ss ih =>
      have hs := h s (List.mem_cons_self s ss)
      simp only [List.foldl_cons, hs, Bool.false_eq_true, if_neg]
      exact ih fun x hx => h x (List.mem_cons_of_mem s hx)

theorem stepClosed_eq (ws we : Int) (acc : Acc) (n : NRow) :
    stepClosed ws we acc n = applyContrib acc (contribOfC ws we n) := by
  unfold stepClosed contribOfC applyContrib
  by_cases h1 : n.b ≤ n.a
  · simp [h1]
  · by_cases h2 : 0 < overlap n.a n.b ws we <;> simp [h1, h2]

theorem stepOpen_eq (ws we now : Int) (acc : Acc) (n : NORow) :
    stepOpen ws we now acc n = applyContrib acc (contribOfO ws we now n) := by
  unfold stepOpen contribOfO applyContrib
  by_cases h2 : 0 < openTerm n.a ws we now <;> simp [h2]

theorem accClosed_eq_mapOpt (ws we : Int) (rs : List CRow) (acc : Acc) :
    accClosed ws we rs acc =
      (mapOpt normCRow rs).map fun ns => ns.foldl (stepClosed ws we) acc := by
  induction rs generalizing acc with
  | nil => rfl
  | cons r rs ih =>
      simp only [accClosed, mapOpt]
      cases normCRow r with
      | none => rfl
      | some n =>
          simp only [Option.some_bind, ih]
          cases mapOpt normCRow rs with
          | none => rfl
          | some ns => simp [List.foldl_cons]

theorem accOpen_eq_mapOpt (ws we now : Int) (rs : List ORow) (acc : Acc) :
    accOpen ws we now rs acc =
      (mapOpt normORow rs).map fun ns => ns.foldl (stepOpen ws we now) acc := by
  induction rs generalizing acc with
  | nil => rfl
  | cons r rs ih =>
      simp only [accOpen, mapOpt]
      cases normORow r with
      | none => rfl
      | some n =>
          simp only [Option.some_bind, ih]
          cases mapOpt normORow rs with
          | none => rfl
          | some ns => simp [List.foldl_cons]

theorem foldl_stepClosed_eq (ws we : Int) (ns : List NRow) (acc : Acc) :
    ns.foldl (stepClosed ws we) acc =
      (ns.map (contribOfC ws we)).foldl applyContrib acc := by
  induction ns generalizing acc with
  | nil => rfl
  | cons n ns ih => simp [List.foldl_cons, stepClosed_eq, ih]

theorem foldl_stepOpen_eq (ws we now : Int) (ns : List NORow) (acc : Acc) :
    ns.foldl (stepOpen ws we now) acc =
      (ns.map (contribOfO ws we now)).foldl applyContrib acc := by
  induction ns generalizing acc with
  | nil => rfl
  | cons n ns ih => simp [List.foldl_cons, stepOpen_eq, ih]

theorem keys_addTotal (totals : List (Int × Int)) (v ov : Int) :
    (addTotal totals v ov).map Prod.fst =
      if totals.any fun p => p.1 == v then totals.map Prod.fst
      else totals.map Prod.fst ++ [v] := by
  unfold addTotal
  split_ifs with hin
  · rw [List.map_map]
    apply List.map_congr_left
    intro p _
    by_cases hq : p.1 = v <;> simp [hq]
  · simp

theorem mem_keys_addTotal {totals : List (Int × Int)} {u v ov : Int} :
    u ∈ (addTotal totals v ov).map Prod.fst ↔ u ∈ totals.map Prod.fst ∨ u = v := by
  rw [keys_addTotal]
  split_ifs with hin
  · constructor
    · exact Or.inl
    · rintro (h | rfl)
      · exact h
      · rw [List.any_eq_true] at hin
        obtain ⟨p, hp, hpv⟩ := hin
        rw [beq_iff_eq] at hpv
        rw [← hpv]
        exact List.mem_map_of_mem _ hp
  · simp [List.mem_append]

theorem addTotal_pos {totals : List (Int × Int)}
    (hpos : ∀ p ∈ totals, 0 < p.2) {v ov : Int} (hov : 0 < ov) :
    ∀ p ∈ addTotal totals v ov, 0 < p.2 := by
  intro p hp
  unfold addTotal at hp
  split_ifs at hp with hin
  · rw [List.mem_map] at hp
    obtain ⟨q, hq, hu⟩ := hp
    have hq2 := hpos q hq
    by_cases hqv : (q.1 == v) = true
    · simp only [hqv, if_true] at hu
      rw [← hu]
      dsimp only
      omega
    · simp only [hqv, if_false, Bool.false_eq_true] at hu
      rw [← hu]
      exact hq2
  · rcases List.mem_append.mp hp with h | h
    · exact hpos p h
    · simp only [List.mem_singleton] at h
      rw [h]
      exact hov

theorem rawLookup_append_single_ne {names : List (Int × String)} {u v : Int}
    {nm : String} (h : u ≠ v) :
    rawLookup (names ++ [(v, nm)]) u = rawLookup names u := by
  unfold rawLookup
  rw [List.find?_append]
  have h2 : List.find? (fun p => p.1 == u) [(v, nm)] = none := by
    simp only [List.find?_cons, List.find?_nil]
    have hvu : ((v, nm).1 == u) = false := by
      simp only [beq_eq_false_iff_ne]
      omega
    simp [hvu]
  rw [h2, Option.or_none]

theorem rawLookup_map_overwrite_ne {names : List (Int × String)} {u v : Int}
    {nm : String} (h : u ≠ v) :
    rawLookup (names.map fun q => if q.1 == v then (q.1, nm) else q) u =
      rawLookup names u := by
  unfold rawLookup
  rw [List.find?_map]
  have hpred : ((fun p : Int × String => p.1 == u) ∘
      fun q : Int × String => if q.1 == v then (q.1, nm) else q) =
      fun q : Int × String => q.1 == u := by
    funext q
    by_cases hq : q.1 = v <;> simp [hq]
  rw [hpred]
  cases hf : names.find? fun q => q.1 == u with
  | none => rfl
  | some q =>
      have hq := List.find?_some hf
      rw [beq_iff_eq] at hq
      have hqv : ¬ q.1 = v := by omega
      simp [hqv]

theorem rawLookup_updName_ne {names : List (Int × String)} {u v : Int}
    {nm : String} (h : u ≠ v) :
    rawLookup (updName names v nm) u = rawLookup names u := by
  cases hf : names.find? fun p => p.1 == v with
  | none =>
      have hu : updName names v nm = names ++ [(v, nm)] := by
        simp [updName, hf]
      rw [hu]
      exact rawLookup_append_single_ne h
  | some p =>
      have hu : updName names v nm =
          if p.2 = "" then names.map fun q => if q.1 == v then (q.1, nm) else q
          else names := by
        simp [updName, hf]
      rw [hu]
      split_ifs with hp
      · exact rawLookup_map_overwrite_ne h
      · rfl

theorem rawLookup_append_single_self {names : List (Int × String)} {v : Int}
    {nm : String} (h : (names.find? fun p => p.1 == v) = none) :
    rawLookup (names ++ [(v, nm)]) v = some nm := by
  unfold rawLookup
  rw [List.find?_append, h]
  simp

theorem rawLookup_map_overwrite_self {names : List (Int × String)} {v : Int}
    {nm : String} {p : Int × String}
    (h : (names.find? fun q => q.1 == v) = some p) :
    rawLookup (names.map fun q => if q.1 == v then (q.1, nm) else q) v = some nm := by
  unfold rawLookup
  rw [List.find?_map]
  have hpred : ((fun q : Int × String => q.1 == v) ∘
      fun q : Int × String => if q.1 == v then (q.1, nm) else q) =
      fun q : Int × String => q.1 == v := by
    funext q
    by_cases hq : q.1 = v <;> simp [hq]
  rw [hpred, h]
  have hp := List.find?_some h
  rw [beq_iff_eq] at hp
  simp [hp]

theorem rawLookup_find?_eq {names : List (Int × String)} {v : Int} :
    rawLookup names v = (names.find? fun p => p.1 == v).map Prod.snd := rfl

theorem rawLookup_updName_self (names : List (Int × String)) (v : Int)
    (nm : String) :
    rawLookup (updName names v nm) v = nameUpd (rawLookup names v) nm := by
  cases hf : names.find? fun p => p.1 == v with
  | none =>
      have hu : updName names v nm = names ++ [(v, nm)] := by
        simp [updName, hf]
      rw [hu, rawLookup_append_single_self hf]
      rw [rawLookup_find?_eq, hf]
      rfl
  | some p =>
      have hu : updName names v nm =
          if p.2 = "" then names.map fun q => if q.1 == v then (q.1, nm) else q
          else names := by
        simp [updName, hf]
      rw [hu]
      split_ifs with hp
      · rw [rawLookup_map_overwrite_self hf]
        rw [rawLookup_find?_eq, hf]
        simp [nameUpd, hp]
      · rw [rawLookup_find?_eq, hf]
        simp [nameUpd, hp]

theorem rawLookup_foldl_applyContrib
    (cs : List (Option (Int × String × Int))) (acc : Acc) (u : Int) :
    rawLookup (cs.foldl applyContrib acc).2 u =
      (namesFor cs u).foldl nameUpd (rawLookup acc.2 u) := by
  induction cs generalizing acc with
  | nil => rfl
  | cons c cs ih =>
      cases c with
      | none => simpa [namesFor, applyContrib] using ih acc
      | some d =>
          by_cases hd : d.1 = u
          · have hbeq : (d.1 == u) = true := by simp [hd]
            simp only [List.foldl_cons, namesFor, List.filterMap_cons,
              Option.some_bind, hbeq, if_pos]
            rw [ih]
            subst hd
            simp [namesFor, applyContrib, rawLookup_updName_self]
          · have hbeq : (d.1 == u) = false := by simp [hd]
            simp only [List.foldl_cons, namesFor, List.filterMap_cons,
              Option.some_bind, hbeq]
            rw [ih]
            simp only [applyContrib]
            rw [rawLookup_updName_ne (by omega)]
            simp [namesFor]

theorem mem_keys_foldl_applyContrib
    (cs : List (Option (Int × String × Int))) (acc : Acc) (u : Int) :
    u ∈ (cs.foldl applyContrib acc).1.map Prod.fst ↔
      u ∈ acc.1.map Prod.fst ∨ ∃ nm ov, some (u, nm, ov) ∈ cs := by
  induction cs generalizing acc with
  | nil => simp
  | cons c cs ih =>
      cases c with
      | none =>
          simp only [List.foldl_cons, applyContrib, ih]
          constructor
          · rintro (h | ⟨nm, ov, h⟩)
            · exact Or.inl h
            · exact Or.inr ⟨nm, ov, List.mem_cons_of_mem _ h⟩
          · rintro (h | ⟨nm, ov, h⟩)
            · exact Or.inl h
            · rcases List.mem_cons.mp h with h | h
              · simp at h
              · exact Or.inr ⟨nm, ov, h⟩
      | some d =>
          simp only [List.foldl_cons, applyContrib, ih]
          rw [mem_keys_addTotal]
          constructor
          · rintro ((h | h) | ⟨nm, ov, h⟩)
            · exact Or.inl h
            · exact Or.inr ⟨d.2.1, d.2.2, by subst h; simp⟩
            · exact Or.inr ⟨nm, ov, List.mem_cons_of_mem _ h⟩
          · rintro (h | ⟨nm, ov, h⟩)
            · exact Or.inl (Or.inl h)
            · rcases List.mem_cons.mp h with h | h
              · replace h : d = (u, nm, ov) := by
                  injection h.symm with h1
                exact Or.inl (Or.inr (by rw [h]))
              · exact Or.inr ⟨nm, ov, h⟩

theorem pos_foldl_applyContrib
    (cs : List (Option (Int × String × Int))) (acc : Acc)
    (hacc : ∀ p ∈ acc.1, 0 < p.2)
    (hcs : ∀ c ∈ cs, ∀ u nm ov, c = some (u, nm, ov) → 0 < ov) :
    ∀ p ∈ (cs.foldl applyContrib acc).1, 0 < p.2 := by
  induction cs generalizing acc with
  | nil => exact hacc
  | cons c cs ih =>
      cases c with
      | none =>
          exact ih acc hacc fun c hc => hcs c (List.mem_cons_of_mem _ hc)
      | some d =>
          simp only [List.foldl_cons, applyContrib]
          apply ih
          · apply addTotal_pos hacc
            exact hcs (some d) (List.mem_cons_self _ _) d.1 d.2.1 d.2.2 (by simp)
          · exact fun c hc => hcs c (List.mem_cons_of_mem _ hc)

theorem sorted_sortTotalsDesc (l : List (Int × Int)) :
    (sortTotalsDesc l).Pairwise fun x y => y.2 ≤ x.2 := by
  haveI h1 : IsTotal (Int × Int) fun x y => y.2 ≤ x.2 := ⟨fun a b => le_total b.2 a.2⟩
  haveI h2 : IsTrans (Int × Int) fun x y => y.2 ≤ x.2 :=
    ⟨fun a b c hab hbc => le_trans hbc hab⟩
  unfold sortTotalsDesc
  exact List.sorted_insertionSort _ l

theorem perm_sortTotalsDesc (l : List (Int × Int)) :
    List.Perm (sortTotalsDesc l) l := by
  unfold sortTotalsDesc
  exact List.perm_insertionSort _ l

theorem filter_orderedInsert_key (x : Int × Int) (l : List (Int × Int)) (v : Int) :
    ((l.orderedInsert (fun a b => b.2 ≤ a.2) x).filter fun p => p.2 == v) =
      if x.2 == v then x :: l.filter fun p => p.2 == v
      else l.filter fun p => p.2 == v := by
  induction l with
  | nil =>
      by_cases hx : (x.2 == v) = true <;>
        simp [List.orderedInsert, List.filter_cons, hx]
  | cons y ys ih =>
      rw [List.orderedInsert]
      by_cases hr : y.2 ≤ x.2
      · rw [if_pos hr]
        by_cases hx : (x.2 == v) = true <;>
          simp [List.filter_cons, hx]
      · rw [if_neg hr]
        rw [List.filter_cons, List.filter_cons]
        by_cases hx : (x.2 == v) = true
        · have hxv : x.2 = v := by rwa [beq_iff_eq] at hx
          have hy : (y.2 == v) = false := by
            simp only [beq_eq_false_iff_ne]
            omega
          simp [hy, ih, hx]
        · by_cases hy : (y.2 == v) = true <;> simp [hy, ih, hx]

theorem filter_sortTotalsDesc (l : List (Int × Int)) (v : Int) :
    ((sortTotalsDesc l).filter fun p => p.2 == v) = l.filter fun p => p.2 == v := by
  unfold sortTotalsDesc
  induction l with
  | nil => rfl
  | cons x xs ih =>
      rw [List.insertionSort]
      rw [filter_orderedInsert_key, List.filter_cons]
      by_cases hx : (x.2 == v) = true <;> simp [hx, ih]

theorem rankBetween_eq_contribs (db : List Session) (gid ws we : Int)
    (incl : Bool) (now : Int) (limit : Nat) :
    rankBetween db gid ws we incl now limit =
      (contribsOfDb db gid ws we incl now).map fun cs =>
        ((sortTotalsDesc (cs.foldl applyContrib ([], [])).1).take limit).map
          fun p => (p.1, lookupName (cs.foldl applyContrib ([], [])).2 p.1, p.2) := by
  unfold rankBetween contribsOfDb
  rw [accClosed_eq_mapOpt]
  cases hc : mapOpt normCRow (groupClosedRows db gid) with
  | none => rfl
  | some ns =>
      cases incl with
      | false =>
          simp only [Option.map_some', Option.bind_eq_bind, Option.some_bind,
            Bool.false_eq_true, if_false, Option.pure_def]
          rw [foldl_stepClosed_eq]
          simp
      | true =>
          simp only [Option.map_some', Option.bind_eq_bind, Option.some_bind,
            eq_self_iff_true, if_true]
          rw [accOpen_eq_mapOpt]
          cases ho : mapOpt normORow (groupOpenRows db gid) with
          | none => rfl
          | some os =>
              simp only [Option.map_some', Option.some_bind, Option.pure_def]
              rw [List.foldl_append, foldl_stepClosed_eq, foldl_stepOpen_eq]

theorem foldl_nameUpd_some (cs : List String) (s : String) :
    cs.foldl nameUpd (some s) = some (firstNE (s :: cs)) := by
  induction cs generalizing s with
  | nil =>
      by_cases hs : s = "" <;> simp [firstNE, List.find?_cons, hs]
  | cons c cs ih =>
      simp only [List.foldl_cons]
      by_cases hs : s = ""
      · subst hs
        have h1 : nameUpd (some "") c = some c := by simp [nameUpd]
        rw [h1, ih]
        congr 1
      · have h1 : nameUpd (some s) c = some s := by simp [nameUpd, hs]
        rw [h1, ih]
        congr 1
        simp [firstNE, List.find?_cons, hs]

theorem foldl_nameUpd_none_ne_nil {cs : List String} (h : cs ≠ []) :
    cs.foldl nameUpd none = some (firstNE cs) := by
  cases cs with
  | nil => exact absurd rfl h
  | cons c cs =>
      simp only [List.foldl_cons]
      have h1 : nameUpd none c = some c := rfl
      rw [h1, foldl_nameUpd_some]

theorem namesFor_eq_pairsFilter (cs : List (Option (Int × String × Int))) (u : Int) :
    namesFor cs u =
      ((cs.filterMap fun c => c.map fun d => (d.1, d.2.1)).filter
        fun p => p.1 == u).map Prod.snd := by
  induction cs with
  | nil => rfl
  | cons c cs ih =>
      cases c with
      | none =>
          have hcons : namesFor (none :: cs) u = namesFor cs u := rfl
          rw [hcons, ih]
          simp [List.filterMap_cons]
      | some d =>
          by_cases hd : d.1 = u
          · have hcons : namesFor (some d :: cs) u = d.2.1 :: namesFor cs u := by
              simp [namesFor, List.filterMap_cons, hd]
            rw [hcons, ih]
            simp [List.filterMap_cons, List.filter_cons, hd]
          · have hcons : namesFor (some d :: cs) u = namesFor cs u := by
              simp [namesFor, List.filterMap_cons, hd]
            rw [hcons, ih]
            simp [List.filterMap_cons, List.filter_cons, hd]

theorem contribOfC_some {ws we : Int} {n : NRow} {u : Int} {nm : String}
    {ov : Int} (h : contribOfC ws we n = some (u, nm, ov)) :
    u = n.uid ∧ nm = n.name ∧ ov = overlap n.a n.b ws we ∧ 0 < ov := by
  unfold contribOfC at h
  by_cases h1 : n.b ≤ n.a
  · simp [h1] at h
  · by_cases h2 : 0 < overlap n.a n.b ws we
    · simp only [h1, if_false, h2, if_true] at h
      simp only [Option.some.injEq, Prod.mk.injEq] at h
      obtain ⟨h3, h4, h5⟩ := h
      refine ⟨h3.symm, h4.symm, h5.symm, ?_⟩
      omega
    · simp [h1, h2] at h

theorem contribOfO_some {ws we now : Int} {n : NORow} {u : Int} {nm : String}
    {ov : Int} (h : contribOfO ws we now n = some (u, nm, ov)) :
    u = n.uid ∧ nm = n.name ∧ ov = openTerm n.a ws we now ∧ 0 < ov := by
  unfold contribOfO at h
  by_cases h2 : 0 < openTerm n.a ws we now
  · simp only [h2, if_true] at h
    simp only [Option.some.injEq, Prod.mk.injEq] at h
    obtain ⟨h3, h4, h5⟩ := h
    refine ⟨h3.symm, h4.symm, h5.symm, ?_⟩
    omega
  · simp [h2] at h

theorem mapOpt_mem {f : α → Option β} {l : List α} {out : List β}
    (h : mapOpt f l = some out) : ∀ b ∈ out, ∃ a ∈ l, f a = some b := by
  induction l generalizing out with
  | nil =>
      simp only [mapOpt, Option.some.injEq] at h
      intro b hb
      rw [← h] at hb
      simp at hb
  | cons x xs ih =>
      simp only [mapOpt, Option.bind_eq_bind, Option.bind_eq_some,
        Option.pure_def, Option.some.injEq] at h
      obtain ⟨y, hy, ys, hys, hout⟩ := h
      intro b hb
      rw [← hout] at hb
      rcases List.mem_cons.mp hb with rfl | hb
      · exact ⟨x, List.mem_cons_self x xs, hy⟩
      · obtain ⟨a, ha, hfa⟩ := ih hys b hb
        exact ⟨a, List.mem_cons_of_mem x ha, hfa⟩

theorem normCRow_some {r : CRow} {n : NRow} (h : normCRow r = some n) :
    n.uid = r.uid ∧ n.name = r.name ∧
      toEpochMixed r.st = some n.a ∧ toEpochMixed r.et = some n.b := by
  unfold normCRow at h
  cases ha : toEpochMixed r.st with
  | none => rw [ha] at h; simp at h
  | some a =>
      rw [ha] at h
      cases hb : toEpochMixed r.et with
      | none => rw [hb] at h; simp at h
      | some b =>
          rw [hb] at h
          simp only [Option.bind_eq_bind, Option.some_bind, Option.pure_def,
            Option.some.injEq] at h
          subst h
          exact ⟨rfl, rfl, rfl, rfl⟩

theorem normORow_some {r : ORow} {n : NORow} (h : normORow r = some n) :
    n.uid = r.uid ∧ n.name = r.name ∧ toEpochMixed r.st = some n.a := by
  unfold normORow at h
  cases ha : toEpochMixed r.st with
  | none => rw [ha] at h; simp at h
  | some a =>
      rw [ha] at h
      simp only [Option.bind_eq_bind, Option.some_bind, Option.pure_def,
        Option.some.injEq] at h
      subst h
      exact ⟨rfl, rfl, rfl⟩

theorem lineOf_some {ws we now : Int} {s : Session} {l : SessLine}
    (h : lineOf ws we now s = some l) :
    l.dur = match l.etE with
      | some b => overlap l.stE b ws we
      | none => openTerm l.stE ws we now := by
  unfold lineOf at h
  cases ha : toEpochMixed s.start_ts with
  | none => rw [ha] at h; simp at h
  | some a =>
      rw [ha] at h
      simp only [Option.bind_eq_bind, Option.some_bind] at h
      cases hse : s.end_ts with
      | none =>
          rw [hse] at h
          simp only [Option.pure_def, Option.some.injEq] at h
          rw [← h]
          rfl
      | some e =>
          rw [hse] at h
          have h2 : ((toEpochMixed e).bind fun b =>
              (pure (SessLine.mk a (some b) (max 0 (min b we - max a ws))) :
                Option SessLine)) = some l := h
          cases hb : toEpochMixed e with
          | none => rw [hb] at h2; simp at h2
          | some b =>
              rw [hb] at h2
              simp only [Option.some_bind, Option.pure_def, Option.some.injEq] at h2
              rw [← h2]
              rfl

theorem pvLe_total (x y : PyVal) : pvLe x y = true ∨ pvLe y x = true := by
  cases x with
  | vint a =>
      cases y with
      | vint b =>
          simp only [pvLe, decide_eq_true_eq]
          omega
      | vstr b => exact Or.inl rfl
  | vstr a =>
      cases y with
      | vint b => exact Or.inr rfl
      | vstr b =>
          simp only [pvLe, decide_eq_true_eq]
          exact le_total _ _

theorem pvLe_trans {x y z : PyVal} :
    pvLe x y = true → pvLe y z = true → pvLe x z = true := by
  cases x with
  | vint a =>
      cases y with
      | vint b =>
          cases z with
          | vint c =>
              intro h1 h2
              simp only [pvLe, decide_eq_true_eq] at h1 h2 ⊢
              omega
          | vstr c => intro h1 h2; rfl
      | vstr b =>
          cases z with
          | vint c => intro h1 h2; simp [pvLe] at h2
          | vstr c => intro h1 h2; rfl
  | vstr a =>
      cases y with
      | vint b => intro h1 h2; simp [pvLe] at h1
      | vstr b =>
          cases z with
          | vint c => intro h1 h2; simp [pvLe] at h2
          | vstr c =>
              intro h1 h2
              simp only [pvLe, decide_eq_true_eq] at h1 h2 ⊢
              exact le_trans h1 h2

theorem sorted_sortRowsDesc (l : List Session) :
    (sortRowsDesc l).Pairwise
      fun s t => pvLe (coalesceKey t) (coalesceKey s) = true := by
  haveI h1 : IsTotal Session fun s t => pvLe (coalesceKey t) (coalesceKey s) = true :=
    ⟨fun s t => pvLe_total (coalesceKey t) (coalesceKey s)⟩
  haveI h2 : IsTrans Session fun s t => pvLe (coalesceKey t) (coalesceKey s) = true :=
    ⟨fun s t w hst htw => pvLe_trans htw hst⟩
  unfold sortRowsDesc
  exact List.sorted_insertionSort _ l

theorem closedTerm_mono {ws we wsB weB : Int}
    (hD : we ≤ ws ∨ (wsB ≤ ws ∧ we ≤ weB)) (a b : Int) :
    closedTerm a b ws we ≤ closedTerm a b wsB weB := by
  unfold closedTerm overlap
  split_ifs with h
  · omega
  · rcases hD with h1 | ⟨h1, h2⟩ <;> omega

theorem openTerm_mono {ws we wsB weB : Int}
    (hD : we ≤ ws ∨ (wsB ≤ ws ∧ we ≤ weB)) (a now : Int) :
    openTerm a ws we now ≤ openTerm a wsB weB now := by
  unfold openTerm
  rcases hD with h1 | ⟨h1, h2⟩ <;> omega

theorem Ico_subset_window_facts {ws we wsB weB : Int}
    (h : Set.Ico ws we ⊆ Set.Ico wsB weB) :
    we ≤ ws ∨ (wsB ≤ ws ∧ we ≤ weB) := by
  by_cases hlt : we ≤ ws
  · exact Or.inl hlt
  · push_neg at hlt
    right
    have h1 : ws ∈ Set.Ico ws we := ⟨le_refl ws, hlt⟩
    have h2 := h h1
    have h3 : we - 1 ∈ Set.Ico ws we := ⟨by omega, by omega⟩
    have h4 := h h3
    rw [Set.mem_Ico] at h2 h4
    omega

theorem sumUserBetween_mono (db : List Session) (uid gid ws we wsB weB : Int)
    (incl : Bool) (now : Int) (t : Int)
    (hD : we ≤ ws ∨ (wsB ≤ ws ∧ we ≤ weB))
    (h : sumUserBetween db uid gid ws we incl now = some t) :
    ∃ tB, sumUserBetween db uid gid wsB weB incl now = some tB ∧ t ≤ tB := by
  unfold sumUserBetween at h ⊢
  rw [sumClosed_eq_mapOpt] at h ⊢
  cases hc : mapOpt normPair (userClosedRows db uid gid) with
  | none => rw [hc] at h; simp at h
  | some cp =>
      have hcsum : (cp.map fun q => closedTerm q.1 q.2 ws we).sum ≤
          (cp.map fun q => closedTerm q.1 q.2 wsB weB).sum := by
        apply List.sum_le_sum
        intro q _
        exact closedTerm_mono hD q.1 q.2
      rw [hc] at h
      cases incl with
      | false =>
          simp at h
          refine ⟨(cp.map fun q => closedTerm q.1 q.2 wsB weB).sum, by simp, by omega⟩
      | true =>
          rw [sumOpen_eq_mapOpt] at h ⊢
          cases ho : mapOpt toEpochMixed (userOpenRows db uid gid) with
          | none =>
              rw [ho] at h
              simp at h
          | some op =>
              have hosum : (op.map fun s => openTerm s ws we now).sum ≤
                  (op.map fun s => openTerm s wsB weB now).sum := by
                apply List.sum_le_sum
                intro s _
                exact openTerm_mono hD s now
              rw [ho] at h
              simp at h
              refine ⟨(cp.map fun q => closedTerm q.1 q.2 wsB weB).sum
                  + (op.map fun s => openTerm s wsB weB now).sum, by simp, by omega⟩

theorem sumUserBetween_congr_norm (db dbB : List Session) (uid gid ws we : Int)
    (incl : Bool) (now : Int)
    (hc : (userClosedRows db uid gid).map normPair
        = (userClosedRows dbB uid gid).map normPair)
    (ho : (userOpenRows db uid gid).map toEpochMixed
        = (userOpenRows dbB uid gid).map toEpochMixed) :
    sumUserBetween db uid gid ws we incl now
      = sumUserBetween dbB uid gid ws we incl now := by
  unfold sumUserBetween
  rw [sumClosed_eq_mapOpt, sumClosed_eq_mapOpt, mapOpt_eq_of_map_eq hc]
  have hOpen : sumOpen ws we now (userOpenRows db uid gid)
      = sumOpen ws we now (userOpenRows dbB uid gid) := by
    rw [sumOpen_eq_mapOpt, sumOpen_eq_mapOpt, mapOpt_eq_of_map_eq ho]
  cases mapOpt normPair (userClosedRows dbB uid gid) with
  | none => rfl
  | some cp =>
      simp only [Option.map_some', Option.bind_eq_bind, Option.some_bind]
      rw [hOpen]

theorem rankBetween_congr_norm (db dbB : List Session) (gid ws we : Int)
    (incl : Bool) (now : Int) (limit : Nat)
    (hc : (groupClosedRows db gid).map normCRow
        = (groupClosedRows dbB gid).map normCRow)
    (ho : (groupOpenRows db gid).map normORow
        = (groupOpenRows dbB gid).map normORow) :
    rankBetween db gid ws we incl now limit
      = rankBetween dbB gid ws we incl now limit := by
  rw [rankBetween_eq_contribs, rankBetween_eq_contribs]
  unfold contribsOfDb
  rw [mapOpt_eq_of_map_eq hc]
  have hO : mapOpt normORow (groupOpenRows db gid)
      = mapOpt normORow (groupOpenRows dbB gid) := mapOpt_eq_of_map_eq ho
  cases mapOpt normCRow (groupClosedRows dbB gid) with
  | none => rfl
  | some ns =>
      simp only [Option.bind_eq_bind, Option.some_bind]
      rw [hO]

/-- C1: for every user, group and half-open window, `sum_user_between`
returns the sum over every closed session of that user/group of
`max(0, min(end_time, window_end) - max(start_time, window_start))` — with a
closed session whose `end_time ≤ start_time` contributing zero — plus, when
`include_open` is set, `max(0, min(now, window_end) - max(start_time,
window_start))` for every open session; and the returned total is never
negative.  `specSumUser` is the claim's formula verbatim. -/
theorem C1_sum_user_between (db : List Session) (uid gid ws we : Int)
    (incl : Bool) (now : Int) :
    sumUserBetween db uid gid ws we incl now
      = specSumUser db uid gid ws we incl now ∧
    ∀ t, sumUserBetween db uid gid ws we incl now = some t → 0 ≤ t :=
  ⟨sumUserBetween_eq_spec db uid gid ws we incl now,
   fun t h => sumUserBetween_nonneg db uid gid ws we incl now t h⟩

theorem C1_sum_user_between_witness :
    (sumUserBetween exDb1 1 0 5 100 true 50
      = specSumUser exDb1 1 0 5 100 true 50) ∧
    sumUserBetween exDb1 1 0 5 100 true 50 = some 15 ∧ (0 : Int) ≤ 15 :=
  ⟨(C1_sum_user_between exDb1 1 0 5 100 true 50).1, by decide,
   (C1_sum_user_between exDb1 1 0 5 100 true 50).2 15 (by decide)⟩

/-- C2 counterexample: the claim asserts the normalization is applied at
every place the timestamp columns are read, but `cmd_end` (line 242) reads
`start_ts` through a plain `int(...)`: on a stored timestamp string that the
normalization maps to epoch `100`, the end command raises (`none`) instead of
closing the session, while the same session stored with the normalized
integer start closes fine. -/
theorem C2_counterexample :
    toEpochMixed exIsoVal = some 100 ∧
    cmdEnd exDb2 1 0 200 = none ∧
    cmdEnd [⟨1, 1, some "A", 0, .vint 100, none, none⟩] 1 0 200
      = some (.ended 100,
          [⟨1, 1, some "A", 0, .vint 100, some (.vint 200), some 100⟩]) := by
  refine ⟨rfl, by decide, by decide⟩

/-- C2 (amended): the normalization maps an integer to itself, maps a parsed
timestamp string to its epoch seconds with an absent offset read in the fixed
zone, falls back to reading an unparseable string as a raw integer and raises
when that fails too; it is applied uniformly at every timestamp read in the
aggregation paths — the per-user sum and the group ranking are functions of
the stored values only through the normalization — while the end-session
path instead reads `start_ts` as a raw integer and raises on timestamp
text. -/
theorem C2_normalization_amended :
    (∀ n : Int, toEpochMixed (.vint n) = some n) ∧
    (∀ raw d ai, toEpochMixed (.vstr ⟨raw, some d, ai⟩)
        = some (d.wall - d.off.getD TZOFFSET)) ∧
    (∀ raw ai, toEpochMixed (.vstr ⟨raw, none, ai⟩) = ai) ∧
    (∀ db dbB : List Session, ∀ uid gid ws we : Int, ∀ incl : Bool, ∀ now : Int,
      (userClosedRows db uid gid).map normPair
          = (userClosedRows dbB uid gid).map normPair →
      (userOpenRows db uid gid).map toEpochMixed
          = (userOpenRows dbB uid gid).map toEpochMixed →
      sumUserBetween db uid gid ws we incl now
        = sumUserBetween dbB uid gid ws we incl now) ∧
    (∀ db dbB : List Session, ∀ gid ws we : Int, ∀ incl : Bool, ∀ now : Int,
      ∀ limit : Nat,
      (groupClosedRows db gid).map normCRow
          = (groupClosedRows dbB gid).map normCRow →
      (groupOpenRows db gid).map normORow
          = (groupOpenRows dbB gid).map normORow →
      rankBetween db gid ws we incl now limit
        = rankBetween dbB gid ws we incl now limit) ∧
    (∀ db : List Session, ∀ uid gid now : Int, ∀ r : Session,
      latestOpen db uid gid = some r → pyIntOf r.start_ts = none →
      cmdEnd db uid gid now = none) := by
  refine ⟨fun n => rfl, fun raw d ai => rfl, fun raw ai => rfl, ?_, ?_, ?_⟩
  · intro db dbB uid gid ws we incl now hc ho
    exact sumUserBetween_congr_norm db dbB uid gid ws we incl now hc ho
  · intro db dbB gid ws we incl now limit hc ho
    exact rankBetween_congr_norm db dbB gid ws we incl now limit hc ho
  · intro db uid gid now r hlat hpy
    unfold cmdEnd
    rw [hlat]
    simp [hpy]

theorem C2_normalization_amended_witness :
    toEpochMixed (PyVal.vint 42) = some 42 ∧
    sumUserBetween exDb1 1 0 5 100 true 50
      = sumUserBetween exDb1Str 1 0 5 100 true 50 ∧
    rankBetween exDb1 0 5 100 true 50 10
      = rankBetween exDb1Str 0 5 100 true 50 10 ∧
    cmdEnd exDb2 1 0 200 = none := by
  refine ⟨C2_normalization_amended.1 42, ?_, ?_, ?_⟩
  · exact C2_normalization_amended.2.2.2.1 exDb1 exDb1Str 1 0 5 100 true 50
      (by decide) (by decide)
  · exact C2_normalization_amended.2.2.2.2.1 exDb1 exDb1Str 0 5 100 true 50 10
      (by decide) (by decide)
  · exact C2_normalization_amended.2.2.2.2.2 exDb2 1 0 200
      ⟨1, 1, some "A", 0, exIsoVal, none, none⟩ (by decide) (by decide)

/-- C3: a start issued while an open session exists for the `(user, guild)`
pair returns the "already in progress" outcome and leaves the store
unchanged; an end issued while no open session exists returns the "nothing
in progress" outcome and leaves the store unchanged. -/
theorem C3_state_guards (db : List Session) (uid : Int) (uname : String)
    (gid now : Int) :
    (hasOpenRow db uid gid = true →
      cmdStart db uid uname gid now = (.alreadyInProgress, db)) ∧
    (hasOpenRow db uid gid = false →
      cmdEnd db uid gid now = some (.nothingInProgress, db)) := by
  constructor
  · intro h
    unfold cmdStart
    rw [if_pos h]
  · intro h
    unfold cmdEnd
    rw [latestOpen_eq_none db uid gid h]

theorem C3_state_guards_witness :
    (hasOpenRow exDb3 1 0 = true ∧
      cmdStart exDb3 1 "A" 0 200 = (.alreadyInProgress, exDb3)) ∧
    (hasOpenRow ([] : List Session) 1 0 = false ∧
      cmdEnd ([] : List Session) 1 0 200 = some (.nothingInProgress, [])) :=
  ⟨⟨by decide, (C3_state_guards exDb3 1 "A" 0 200).1 (by decide)⟩,
   ⟨by decide, (C3_state_guards [] 1 "A" 0 200).2 (by decide)⟩⟩

/-- C4: with the sessions, user, group, clock and `include_open` fixed, if
the window `[ws, we)` is contained in `[wsB, weB)` then the per-user sum over
the smaller window is at most the sum over the larger one. -/
theorem C4_sum_window_mono (db : List Session) (uid gid ws we wsB weB : Int)
    (incl : Bool) (now : Int) (t : Int)
    (hsub : Set.Ico ws we ⊆ Set.Ico wsB weB)
    (h : sumUserBetween db uid gid ws we incl now = some t) :
    ∃ tB, sumUserBetween db uid gid wsB weB incl now = some tB ∧ t ≤ tB :=
  sumUserBetween_mono db uid gid ws we wsB weB incl now t
    (Ico_subset_window_facts hsub) h

theorem C4_sum_window_mono_witness :
    sumUserBetween exDb1 1 0 0 200 true 50 = some 20 ∧ (15 : Int) ≤ 20 := by
  obtain ⟨tB, h1, h2⟩ := C4_sum_window_mono exDb1 1 0 5 100 0 200 true 50 15
    (Set.Ico_subset_Ico (by norm_num) (by norm_num)) (by decide)
  have h3 : sumUserBetween exDb1 1 0 0 200 true 50 = some 20 := by decide
  rw [h1] at h3
  injection h3 with h4
  exact ⟨by rw [h1, h4], by omega⟩

/-- C5: for adjacent windows `[w1, w2)` and `[w2, w3)`, the per-session
overlap against the two windows sums to the overlap against `[w1, w3)`; this
holds for the closed-session term (including the degenerate skip) and for
the open-session term with its end clamped to `min(now, window_end)`. -/
theorem C5_overlap_window_split (s e now w1 w2 w3 : Int)
    (h12 : w1 ≤ w2) (h23 : w2 ≤ w3) :
    closedTerm s e w1 w2 + closedTerm s e w2 w3 = closedTerm s e w1 w3 ∧
    openTerm s w1 w2 now + openTerm s w2 w3 now = openTerm s w1 w3 now := by
  constructor
  · unfold closedTerm overlap
    split_ifs <;> omega
  · unfold openTerm
    omega

theorem C5_overlap_window_split_witness :
    closedTerm 3 10 0 5 + closedTerm 3 10 5 20 = closedTerm 3 10 0 20 ∧
    openTerm 3 0 5 8 + openTerm 3 5 20 8 = openTerm 3 0 20 8 :=
  C5_overlap_window_split 3 10 8 0 5 20 (by norm_num) (by norm_num)

/-- C6: the ranking output is sorted by total seconds descending and
truncated to at most `limit` entries; ties are broken by a stable order —
the stable sort keeps equal totals in the `totals` dict's insertion order,
which is first-seen `user_id` order (per key, the sorted list filters back to
the original order); and on per-user totals A: 100, B: 300, C: 50 the output
is exactly [B, A, C]. -/
theorem C6_rank_order :
    (∀ (db : List Session) (gid ws we : Int) (incl : Bool) (now : Int)
        (limit : Nat) (res : List (Int × String × Int)),
      rankBetween db gid ws we incl now limit = some res →
        res.length ≤ limit ∧
        res.Pairwise fun x y => y.2.2 ≤ x.2.2) ∧
    (∀ (totals : List (Int × Int)) (v : Int),
      ((sortTotalsDesc totals).filter fun p => p.2 == v)
        = totals.filter fun p => p.2 == v) ∧
    rankBetween exDb6 7 0 1000 false 0 10
      = some [(2, "B", 300), (1, "A", 100), (3, "C", 50)] := by
  refine ⟨?_, fun totals v => filter_sortTotalsDesc totals v, by decide⟩
  intro db gid ws we incl now limit res h
  rw [rankBetween_eq_contribs] at h
  cases hcs : contribsOfDb db gid ws we incl now with
  | none => rw [hcs] at h; simp at h
  | some cs =>
      rw [hcs] at h
      simp only [Option.map_some', Option.some.injEq] at h
      subst h
      constructor
      · rw [List.length_map, List.length_take]
        exact min_le_left _ _
      · rw [List.pairwise_map]
        have hs := sorted_sortTotalsDesc (cs.foldl applyContrib ([], [])).1
        exact hs.sublist (List.take_sublist _ _)

theorem C6_rank_order_witness :
    (([((2 : Int), "B", (300 : Int)), (1, "A", 100), (3, "C", 50)]).length ≤ 10 ∧
      List.Pairwise (fun x y : Int × String × Int => y.2.2 ≤ x.2.2)
        [(2, "B", 300), (1, "A", 100), (3, "C", 50)]) ∧
    ((sortTotalsDesc [((1 : Int), (100 : Int)), (2, 300), (3, 50)]).filter
        fun p => p.2 == 300)
      = ([((1 : Int), (100 : Int)), (2, 300), (3, 50)]).filter fun p => p.2 == 300 :=
  ⟨C6_rank_order.1 exDb6 7 0 1000 false 0 10
      [(2, "B", 300), (1, "A", 100), (3, "C", 50)] (by decide),
   C6_rank_order.2.1 [(1, 100), (2, 300), (3, 50)] 300⟩

/-- C7 counterexample: user 1 has two contributing sessions named "Alice"
then "Bob"; the most recently seen non-empty display name is "Bob", but the
ranking returns "Alice" — `rank_between` keeps the FIRST non-empty name
(`if uid not in names or not names[uid]`), not the most recent. -/
theorem C7_counterexample :
    rankBetween exDb7 7 0 1000 false 0 10 = some [(1, "Alice", 200)] ∧
    rankBetween exDb7 7 0 1000 false 0 10 ≠ some [(1, "Bob", 200)] := by
  constructor <;> decide

/-- C7 (amended): the display name returned for each ranked user is the
FIRST non-empty display name among that user's contributing sessions in
processing order (closed rows before open rows), or `""` when every
contributing name is empty. -/
theorem C7_rank_names_amended :
    ∀ (db : List Session) (gid ws we : Int) (incl : Bool) (now : Int)
      (limit : Nat) (res : List (Int × String × Int))
      (pairs : List (Int × String)),
      rankBetween db gid ws we incl now limit = some res →
      contribPairs db gid ws we incl now = some pairs →
      ∀ u nm t, (u, nm, t) ∈ res → nm = firstNonEmptyNameFor pairs u := by
  intro db gid ws we incl now limit res pairs h hp u nm t hmem
  rw [rankBetween_eq_contribs] at h
  unfold contribPairs at hp
  cases hcs : contribsOfDb db gid ws we incl now with
  | none => rw [hcs] at h; simp at h
  | some cs =>
      rw [hcs] at h hp
      simp only [Option.map_some', Option.some.injEq] at h hp
      subst h
      subst hp
      rw [List.mem_map] at hmem
      obtain ⟨p, hpmem, hfp⟩ := hmem
      have hpu : p.1 = u := congrArg Prod.fst hfp
      have hnm : nm = lookupName (cs.foldl applyContrib ([], [])).2 p.1 :=
        (congrArg (fun x => x.2.1) hfp).symm
      have hptot : p ∈ (cs.foldl applyContrib ([], [])).1 :=
        (perm_sortTotalsDesc _).mem_iff.mp (List.take_subset _ _ hpmem)
      have hukeys : u ∈ ((cs.foldl applyContrib ([], [])).1).map Prod.fst := by
        rw [← hpu]
        exact List.mem_map_of_mem _ hptot
      have hiff := mem_keys_foldl_applyContrib cs ([], []) u
      obtain ⟨nmC, ovC, hcmem⟩ := (hiff.mp hukeys).resolve_left (by simp)
      have hne : namesFor cs u ≠ [] := by
        have hin : nmC ∈ namesFor cs u := by
          unfold namesFor
          exact List.mem_filterMap.mpr ⟨some (u, nmC, ovC), hcmem, by simp⟩
        intro hnil
        rw [hnil] at hin
        exact List.not_mem_nil _ hin
      have hraw := rawLookup_foldl_applyContrib cs ([], []) u
      rw [show (rawLookup (([], []) : Acc).2 u) = none from rfl] at hraw
      rw [foldl_nameUpd_none_ne_nil hne] at hraw
      have hlook : lookupName (cs.foldl applyContrib ([], [])).2 u
          = firstNE (namesFor cs u) := by
        unfold lookupName
        rw [hraw]
        rfl
      rw [hnm, hpu, hlook]
      unfold firstNonEmptyNameFor
      rw [namesFor_eq_pairsFilter]

theorem C7_rank_names_amended_witness :
    ("Alice" : String) = firstNonEmptyNameFor [(1, "Alice"), (1, "Bob")] 1 :=
  C7_rank_names_amended exDb7 7 0 1000 false 0 10 [(1, "Alice", 200)]
    [(1, "Alice"), (1, "Bob")] (by decide) (by decide) 1 "Alice" 200 (by decide)

/-- C8: the `month` branch of `period_range` maps the current instant to the
half-open window from 00:00 on the first day of the current month to 00:00
on the first day of the next month, rolling the year at December: for every
December instant the end boundary is January 1 of the following year. -/
theorem C8_period_month (cur : LocalDT) :
    (periodRangeMonth cur).1 = ⟨cur.year, cur.month, 1, 0, 0, 0⟩ ∧
    (periodRangeMonth cur).2 =
      (if cur.month = 12 then ⟨cur.year + 1, 1, 1, 0, 0, 0⟩
       else ⟨cur.year, cur.month + 1, 1, 0, 0, 0⟩) ∧
    (cur.month = 12 →
      (periodRangeMonth cur).2.year = cur.year + 1 ∧
      (periodRangeMonth cur).2.month = 1) := by
  unfold periodRangeMonth
  refine ⟨rfl, ?_, ?_⟩
  · split_ifs with h <;> simp_all
  · intro h
    simp [h]

theorem C8_period_month_witness :
    (periodRangeMonth ⟨2024, 12, 15, 10, 30, 0⟩).1 = ⟨2024, 12, 1, 0, 0, 0⟩ ∧
    (periodRangeMonth ⟨2024, 12, 15, 10, 30, 0⟩).2.year = 2025 ∧
    (periodRangeMonth ⟨2024, 12, 15, 10, 30, 0⟩).2.month = 1 :=
  ⟨(C8_period_month ⟨2024, 12, 15, 10, 30, 0⟩).1,
   (C8_period_month ⟨2024, 12, 15, 10, 30, 0⟩).2.2 rfl⟩

/-- C9 counterexample: the claim says the listing contains exactly the
caller's recent sessions that OVERLAP the period, but a session `[0, 10)`
entirely before the window `[100, 200)` is still listed — with duration 0 —
because `cmd_sessions` fetches the 20 most recent rows unconditionally. -/
theorem C9_counterexample :
    cmdSessions exDb9 1 0 100 200 150 = some ([⟨0, some 10, 0⟩], 0) ∧
    overlap 0 10 100 200 = 0 := by
  constructor <;> decide

/-- C9 (amended): the sessions list contains the caller's rows — the 20 most
recent by `COALESCE(end_ts, start_ts)` descending, regardless of window
overlap — each with duration equal to its overlap with the period window
(open rows clamped to `min(now, window_end)`); the reported total sums the
positive durations, and the selected rows are sorted descending by that
key. -/
theorem C9_sessions_amended :
    ∀ (db : List Session) (uid gid ws we now : Int)
      (lines : List SessLine) (tot : Int),
      cmdSessions db uid gid ws we now = some (lines, tot) →
        lines.length = min 20 (userRows db uid gid).length ∧
        (∀ l ∈ lines, l.dur = match l.etE with
          | some b => overlap l.stE b ws we
          | none => openTerm l.stE ws we now) ∧
        tot = (lines.map fun l => if 0 < l.dur then l.dur else 0).sum ∧
        (sortRowsDesc (userRows db uid gid)).Pairwise
          fun s t => pvLe (coalesceKey t) (coalesceKey s) = true := by
  intro db uid gid ws we now lines tot h
  unfold cmdSessions at h
  cases hm : mapOpt (lineOf ws we now) ((sortRowsDesc (userRows db uid gid)).take 20) with
  | none => rw [hm] at h; simp at h
  | some ls =>
      rw [hm] at h
      simp only [Option.bind_eq_bind, Option.some_bind, Option.pure_def,
        Option.some.injEq, Prod.mk.injEq] at h
      obtain ⟨hls, htot⟩ := h
      subst hls
      refine ⟨?_, ?_, htot.symm, sorted_sortRowsDesc _⟩
      · rw [mapOpt_length hm, List.length_take]
        unfold sortRowsDesc
        rw [List.length_insertionSort]
      · intro l hl
        obtain ⟨s, _, hline⟩ := mapOpt_mem hm l hl
        exact lineOf_some hline

theorem C9_sessions_amended_witness :
    ([(⟨0, some 10, 0⟩ : SessLine)].length = min 20 (userRows exDb9 1 0).length) ∧
    ((⟨0, some 10, 0⟩ : SessLine).dur = overlap 0 10 100 200) ∧
    (0 : Int) = ([(⟨0, some 10, 0⟩ : SessLine)].map
      fun l => if 0 < l.dur then l.dur else 0).sum := by
  have h := C9_sessions_amended exDb9 1 0 100 200 150 [⟨0, some 10, 0⟩] 0 (by decide)
  exact ⟨h.1, h.2.1 ⟨0, some 10, 0⟩ (by decide), h.2.2.1⟩

theorem contribsOfDb_mem {db : List Session} {gid ws we : Int} {incl : Bool}
    {now : Int} {cs : List (Option (Int × String × Int))}
    (hcs : contribsOfDb db gid ws we incl now = some cs) :
    ∀ c ∈ cs,
      (∃ r ∈ groupClosedRows db gid, ∃ n, normCRow r = some n ∧
        contribOfC ws we n = c) ∨
      (incl = true ∧ ∃ r ∈ groupOpenRows db gid, ∃ n, normORow r = some n ∧
        contribOfO ws we now n = c) := by
  unfold contribsOfDb at hcs
  cases hn : mapOpt normCRow (groupClosedRows db gid) with
  | none => rw [hn] at hcs; simp at hcs
  | some ns =>
      rw [hn] at hcs
      cases incl with
      | false =>
          simp only [Option.bind_eq_bind, Option.some_bind, Bool.false_eq_true,
            if_false, Option.pure_def, Option.some.injEq,
            List.map_nil, List.append_nil] at hcs
          intro c hc
          left
          rw [← hcs] at hc
          obtain ⟨n, hnmem, rfl⟩ := List.mem_map.mp hc
          obtain ⟨r, hr, hnr⟩ := mapOpt_mem hn n hnmem
          exact ⟨r, hr, n, hnr, rfl⟩
      | true =>
          cases ho : mapOpt normORow (groupOpenRows db gid) with
          | none => rw [ho] at hcs; simp at hcs
          | some os =>
              rw [ho] at hcs
              simp only [Option.bind_eq_bind, Option.some_bind, eq_self_iff_true,
                if_true, Option.pure_def, Option.some.injEq] at hcs
              intro c hc
              rw [← hcs] at hc
              rcases List.mem_append.mp hc with hcl | hco
              · left
                obtain ⟨n, hnmem, rfl⟩ := List.mem_map.mp hcl
                obtain ⟨r, hr, hnr⟩ := mapOpt_mem hn n hnmem
                exact ⟨r, hr, n, hnr, rfl⟩
              · right
                obtain ⟨n, hnmem, rfl⟩ := List.mem_map.mp hco
                obtain ⟨r, hr, hnr⟩ := mapOpt_mem ho n hnmem
                exact ⟨rfl, r, hr, n, hnr, rfl⟩

/-- C10 (implicit): every entry returned by the ranking has a strictly
positive total, and a user all of whose sessions have zero overlap with the
window never appears in the output, even when fewer than `limit` users are
returned. -/
theorem C10_rank_positive :
    ∀ (db : List Session) (gid ws we : Int) (incl : Bool) (now : Int)
      (limit : Nat) (res : List (Int × String × Int)),
      rankBetween db gid ws we incl now limit = some res →
        (∀ e ∈ res, 0 < e.2.2) ∧
        (∀ u, zeroOverlapUser db gid ws we incl now u →
          u ∉ res.map fun e => e.1) := by
  intro db gid ws we incl now limit res h
  rw [rankBetween_eq_contribs] at h
  cases hcs : contribsOfDb db gid ws we incl now with
  | none => rw [hcs] at h; simp at h
  | some cs =>
      rw [hcs] at h
      simp only [Option.map_some', Option.some.injEq] at h
      subst h
      have hpos : ∀ c ∈ cs, ∀ u nm ov, c = some (u, nm, ov) → 0 < ov := by
        intro c hc u nm ov hceq
        subst hceq
        rcases contribsOfDb_mem hcs _ hc with ⟨r, _, n, _, hcn⟩ | ⟨_, r, _, n, _, hcn⟩
        · exact (contribOfC_some hcn).2.2.2
        · exact (contribOfO_some hcn).2.2.2
      constructor
      · intro e he
        obtain ⟨p, hp, rfl⟩ := List.mem_map.mp he
        have hptot : p ∈ (cs.foldl applyContrib ([], [])).1 :=
          (perm_sortTotalsDesc _).mem_iff.mp (List.take_subset _ _ hp)
        exact pos_foldl_applyContrib cs ([], []) (by simp) hpos p hptot
      · intro u hz hmem
        obtain ⟨e, he, heu⟩ := List.mem_map.mp hmem
        obtain ⟨p, hp, rfl⟩ := List.mem_map.mp he
        have hpu : p.1 = u := heu
        have hptot : p ∈ (cs.foldl applyContrib ([], [])).1 :=
          (perm_sortTotalsDesc _).mem_iff.mp (List.take_subset _ _ hp)
        have hkeys : u ∈ ((cs.foldl applyContrib ([], [])).1).map Prod.fst := by
          rw [← hpu]
          exact List.mem_map_of_mem _ hptot
        have hiff := mem_keys_foldl_applyContrib cs ([], []) u
        obtain ⟨nmC, ovC, hcmem⟩ := (hiff.mp hkeys).resolve_left (by simp)
        rcases contribsOfDb_mem hcs _ hcmem with
          ⟨r, hr, n, hnr, hcn⟩ | ⟨hincl, r, hr, n, hnr, hcn⟩
        · obtain ⟨hu, _, hov, hovpos⟩ := contribOfC_some hcn
          obtain ⟨huid, _, hst, het⟩ := normCRow_some hnr
          have hz1 := hz.1 r hr (by omega) n.a n.b hst het
          omega
        · obtain ⟨hu, _, hov, hovpos⟩ := contribOfO_some hcn
          obtain ⟨huid, _, hst⟩ := normORow_some hnr
          have hz2 := hz.2 hincl r hr (by omega) n.a hst
          omega

theorem C10_rank_positive_witness :
    (∀ e ∈ [((2 : Int), "B", (300 : Int)), (1, "A", 100), (3, "C", 50)],
      0 < e.2.2) ∧
    ((4 : Int) ∉
      ([((2 : Int), "B", (300 : Int)), (1, "A", 100), (3, "C", 50)]).map
        fun e => e.1) := by
  have h := C10_rank_positive exDb6 7 0 1000 false 0 10
    [(2, "B", 300), (1, "A", 100), (3, "C", 50)] (by decide)
  refine ⟨h.1, h.2 4 ?_⟩
  constructor
  · intro r hr hru a b _ _
    exfalso
    have hrows : groupClosedRows exDb6 7 =
        [⟨1, "A", .vint 0, .vint 100⟩, ⟨2, "B", .vint 0, .vint 300⟩,
         ⟨3, "C", .vint 0, .vint 50⟩] := by decide
    rw [hrows] at hr
    simp only [List.mem_cons, List.not_mem_nil, or_false] at hr
    rcases hr with rfl | rfl | rfl <;> simp at hru
  · intro hh
    exact absurd hh (by simp)

end StudyBot

